import Mathlib

/-!
Verification of MohammedMaheer/AI_JobFormMaker.

Shallow embedding of:
* the Field Identifier of the Google Apps Script `onFormSubmit`
  (src/unnamed/part_005, the keyword-scoring identifier);
* the candidate-list logic of src/static/js/job_details.js
  (`loadCandidates` sorting, `displayResults` pending/manual-review states);
* the scoring constants documented in src/README.md and src/unnamed/part_002;
* parts of the Python scoring backend that are not under src/ are
  modelled from the spec where noted.
-/

namespace JobFormMaker

/-! ## Strings: JS `toLowerCase` / `includes` over character lists -/

/-- JS string values lowered to character lists: `title.toLowerCase()`. -/
def lowerOf (s : String) : List Char := s.data.map Char.toLower

/-- `isPre p s` : the character list `p` is an initial segment of `s`. -/
def isPre : List Char → List Char → Bool
  | [], _ => true
  | _ :: _, [] => false
  | p :: ps, c :: cs => p == c && isPre ps cs

/-- `hasSub pat s` : `pat` occurs as a contiguous run inside `s`. -/
def hasSub (pat : List Char) : List Char → Bool
  | [] => isPre pat []
  | c :: cs => isPre pat (c :: cs) || hasSub pat cs

/-- JS `s.includes(pat)` on an already-lowered character list. -/
def includesL (s : List Char) (pat : String) : Bool := hasSub pat.data s

/-! ## Field Identifier data model (src/unnamed/part_005, `onFormSubmit`) -/

/-- A Google-Forms item response value: inline text, or the file-id list
returned by a file-upload item. -/
inductive Ans where
  | text (s : String)
  | files (ids : List String)
deriving DecidableEq, Repr

/-- One `(label, declared-kind, raw-value)` triple of a submission.
`isFile` is `type === FormApp.ItemType.FILE_UPLOAD`. -/
structure Item where
  title : String
  isFile : Bool
  answer : Ans
deriving DecidableEq, Repr

/-- JS truthiness of a payload slot: only the empty string is falsy
(arrays, including empty ones, are truthy). -/
def isFalsy (a : Ans) : Bool := a == Ans.text ""

/-- Name-role score of an item (part_005 lines 259-271): an if/else-if
chain of positive cues on the lowered title, then independent negative
cues subtracted. -/
def nameScoreIt (i : Item) : Int :=
  let t := lowerOf i.title
  (if includesL t "full name" then 10
   else if includesL t "candidate name" then 10
   else if includesL t "your name" then 8
   else if t == "name".data then 5
   else if includesL t "name" then 2
   else 0)
  - (if includesL t "company" then 10 else 0)
  - (if includesL t "reference" then 10 else 0)
  - (if includesL t "manager" then 10 else 0)
  - (if includesL t "file" then 10 else 0)

/-- Phone-role score (part_005 lines 283-287): independent positive cues. -/
def phoneScoreIt (i : Item) : Int :=
  let t := lowerOf i.title
  (if includesL t "phone" then 10 else 0)
  + (if includesL t "mobile" then 10 else 0)
  + (if includesL t "cell" then 10 else 0)
  + (if includesL t "contact number" then 8 else 0)

/-- Resume-role score (part_005 lines 294-300): file-upload kind is the
strongest cue, textual cues add smaller increments. -/
def resumeScoreIt (i : Item) : Int :=
  let t := lowerOf i.title
  (if i.isFile then 20 else 0)
  + (if includesL t "resume" then 10 else 0)
  + (if includesL t "cv" then 10 else 0)
  + (if includesL t "curriculum vitae" then 10 else 0)
  + (if includesL t "upload" then 5 else 0)
  + (if includesL t "attach" then 5 else 0)

/-- The stored resume value (part_005 lines 303-318): a file upload with a
non-empty id array becomes a public drive download URL (successful-sharing
path; the Drive-exception fallback URL is an external-failure branch not
modelled), otherwise the raw answer is kept. -/
def resumeValue (i : Item) : Ans :=
  if i.isFile then
    match i.answer with
    | Ans.files (fid :: _) =>
        Ans.text ("https://drive.google.com/uc?export=download&id=" ++ fid)
    | a => a
  else i.answer

/-- A `bestMatches` slot: `{ score: 0, value: "" }` initially. -/
structure Best where
  score : Int
  value : Ans
deriving DecidableEq, Repr

/-- One competition step: a field replaces the current best only when its
score is strictly greater (part_005 lines 273, 289, 302). -/
def roleStep (score : Item → Int) (val : Item → Ans) (b : Best) (i : Item) : Best :=
  if score i > b.score then ⟨score i, val i⟩ else b

/-- JS object assignment `answers[title] = answer`: overwrite in place if
the key exists, else append. -/
def setKey : List (String × Ans) → String → Ans → List (String × Ans)
  | [], k, v => [(k, v)]
  | (k', v') :: m, k, v =>
      if k' == k then (k', v) :: m else (k', v') :: setKey m k v

/-- Loop state of `onFormSubmit`'s response loop. -/
structure IdState where
  answers : List (String × Ans)
  email : Ans
  bestName : Best
  bestPhone : Best
  bestResume : Best
deriving Repr

/-- Initial state: `payload.email = respondentEmail || ""`, empty answers,
all three role slots at score 0 (part_005 lines 230-245). -/
def initState (respondentEmail : String) : IdState :=
  { answers := []
    email := Ans.text respondentEmail
    bestName := ⟨0, Ans.text ""⟩
    bestPhone := ⟨0, Ans.text ""⟩
    bestResume := ⟨0, Ans.text ""⟩ }

/-- One iteration of the response loop (part_005 lines 248-322): the field
is always recorded in `answers`; each of the three roles runs its
competition; the email fallback fires only while `payload.email` is falsy
and the lowered label contains "email". -/
def stepItem (s : IdState) (i : Item) : IdState :=
  { answers := setKey s.answers i.title i.answer
    email :=
      if isFalsy s.email && includesL (lowerOf i.title) "email" then i.answer
      else s.email
    bestName := roleStep nameScoreIt (fun j => j.answer) s.bestName i
    bestPhone := roleStep phoneScoreIt (fun j => j.answer) s.bestPhone i
    bestResume := roleStep resumeScoreIt resumeValue s.bestResume i }

/-- The webhook payload built by `onFormSubmit`. The `job_description`
slot is filled from the form metadata, not from the fields, and is not
modelled. -/
structure Payload where
  name : Ans
  email : Ans
  phone : Ans
  resume_url : Ans
  answers : List (String × Ans)
deriving DecidableEq, Repr

/-- The Field Identifier of part_005's `onFormSubmit`: fold the response
loop over the items, then assign each best match to the payload only when
its score is positive (lines 324-327); otherwise the payload keeps its
defaults (lines 230-237). -/
def onFormSubmit (respondentEmail : String) (items : List Item) : Payload :=
  let s := items.foldl stepItem (initState respondentEmail)
  { name := if s.bestName.score > 0 then s.bestName.value else Ans.text "Unknown Candidate"
    email := s.email
    phone := if s.bestPhone.score > 0 then s.bestPhone.value else Ans.text ""
    resume_url := if s.bestResume.score > 0 then s.bestResume.value else Ans.text ""
    answers := s.answers }

/-! ## Candidate list (src/static/js/job_details.js) -/

/-- The `ai_analysis` object as read by the dashboard; only `summary` is
inspected. A missing or undefined summary behaves like the empty string
in every truthiness test the code performs, so it is
modelled as `""`. -/
structure Ai where
  summary : String
deriving DecidableEq, Repr

/-- A candidate record as consumed by `job_details.js`: `status` is `""`
when absent, `total_score` and `ai_analysis` may be absent. -/
structure Cand where
  id : String
  status : String
  total_score : Option Int
  ai_analysis : Option Ai
  parsing_failed : Bool
  timestamp : Int
deriving DecidableEq, Repr

/-- Sort key: `candidate.total_score || 0` (job_details.js line 377). -/
def keyOf (c : Cand) : Int := c.total_score.getD 0

/-- `displayResults` line 438: a candidate is pending when its status is
"pending", or its total_score is exactly 0 and it either has no
ai_analysis or its (truthy) summary contains "Pending". -/
def isPending (c : Cand) : Bool :=
  c.status == "pending" ||
  (c.total_score == some 0 &&
    match c.ai_analysis with
    | none => true
    | some a => !(a.summary == "") && includesL a.summary.data "Pending")

/-- The score-badge state of a rendered candidate card
(`displayResults` lines 437-452). -/
inductive DState where
  | pending
  | manualReview
  | scored
deriving DecidableEq, Repr

/-- `displayResults` lines 440-452: pending wins over manual review; a
non-pending candidate with `parsing_failed` shows "Manual Review";
otherwise the numeric score is shown. Every candidate gets a card. -/
def displayState (c : Cand) : DState :=
  if isPending c then DState.pending
  else if c.parsing_failed then DState.manualReview
  else DState.scored

/-- The ids pushed to `pendingIds` during rendering and then handed to
`processPendingQueue` (lines 448, 504-510). -/
def pendingIds (l : List Cand) : List String :=
  (l.filter (fun c => isPending c)).map (fun c => c.id)

/-- `loadCandidates` line 377 sorts with the comparator
`(b.total_score||0) - (a.total_score||0)`; `Array.prototype.sort` is
stable, so this is a stable descending sort on `keyOf`, modelled as
stable insertion sort. -/
def insertCand (c : Cand) : List Cand → List Cand
  | [] => [c]
  | d :: ds => if keyOf d ≤ keyOf c then c :: d :: ds else d :: insertCand c ds

/-- The sorted candidate list of `loadCandidates`. -/
def sortCands : List Cand → List Cand
  | [] => []
  | c :: cs => insertCand c (sortCands cs)

/-- Ranks are the 1-based positions of the sorted list
(`#${index + 1}` in `displayResults`). -/
def rankCands (l : List Cand) : List (Nat × Cand) :=
  (sortCands l).enumFrom 1

/-- Sortedness (descending on `keyOf`) of a candidate list. -/
def SortedDesc (l : List Cand) : Prop :=
  l.Pairwise (fun a b => keyOf b ≤ keyOf a)

/-! ## Scoring constants (src/README.md "Scoring System",
src/unnamed/part_002 "Scoring System (v2.0)") -/

/-- The nine-dimension weight table exactly as documented in
src/README.md lines 112-122 (identical percentages in part_002). -/
def weightsTable : List (String × ℚ) :=
  [("Job Relevance", 25/100),
   ("Skills Match", 20/100),
   ("Technical Depth", 15/100),
   ("Experience", 10/100),
   ("Project Complexity", 10/100),
   ("Communication", 5/100),
   ("Culture Fit", 5/100),
   ("Education", 5/100),
   ("Keywords", 5/100)]

/-- The nine dimension names, in table order. -/
def dimNames : List String := weightsTable.map Prod.fst

/-- The weight of a named dimension. -/
def weightOf (d : String) : ℚ := (weightsTable.lookup d).getD 0

/-! ## Aggregation and grading, modelled from the spec (the Python
scoring backend is not under src/; only its dashboard consumers are) -/

/-- The letter grade. -/
inductive Grade where
  | A
  | B
  | C
  | D
deriving DecidableEq, Repr

/-- Modelled from the spec: the grade computation lives in the Python
backend, which is not under src/ (the dashboard only reads
`candidate.grade`). Spec §4.6: `A ≥ 80`, `B ≥ 65`, `C ≥ 50`, else `D`. -/
def gradeOf (s : Int) : Grade :=
  if 80 ≤ s then Grade.A
  else if 65 ≤ s then Grade.B
  else if 50 ≤ s then Grade.C
  else Grade.D

/-- Clamp an integer score into `[0, 100]`. -/
def clampI (x : Int) : Int := max 0 (min 100 x)

/-- Modelled from the spec: §4.3 `weighted_sum = Σ dimension_score[d] *
weight[d]`, rounded to nearest integer, clamped `[0,100]`; the backend
computing it is not under src/. -/
def weighted_sum (dims : List (String × ℚ)) : Int :=
  clampI (round ((dims.map (fun p => p.2 * weightOf p.1)).sum))

/-- Modelled from the spec: §4.6 `total_score = clamp(weighted_sum +
ai_adjustment + Σ modifier deltas, 0, 100)`; the aggregator is in the
Python backend, not under src/. -/
def total_score (dims : List (String × ℚ)) (ai : Int) (mods : List Int) : Int :=
  clampI (weighted_sum dims + ai + mods.sum)

/-- The candidate-side scoring input relevant to degraded mode. -/
structure Profile where
  resume_text : Option String
  parsing_failed : Bool
deriving DecidableEq, Repr

/-- A ScoreBreakdown as in spec §3: per-dimension scores, clamped total,
grade. -/
structure ScoreBreakdown where
  dimension_scores : List (String × ℚ)
  total : Int
  grade : Grade
deriving DecidableEq, Repr

/-- Modelled from the spec: the score pipeline of the Python backend is
not under src/. Per §4.2-4.3 every candidate — including one with
`parsing_failed = true` — has all nine dimensions scored (the scorers are
total functions, degraded on null text; their exact formulas are the
abstract parameter `f`) and receives a complete breakdown with clamped
total and grade. -/
def mkBreakdown (f : String → Option String → ℚ) (ai : Int) (mods : List Int)
    (p : Profile) : ScoreBreakdown :=
  { dimension_scores := dimNames.map (fun d => (d, f d p.resume_text))
    total := total_score (dimNames.map (fun d => (d, f d p.resume_text))) ai mods
    grade := gradeOf (total_score (dimNames.map (fun d => (d, f d p.resume_text))) ai mods) }

/-! ## Selection lemmas: the strict-greater fold picks the first field
attaining the maximal score -/

section Selection

variable (score : Item → Int) (val : Item → Ans)

/-- If no item beats the accumulator, the fold keeps it. -/
theorem pick_keep (l : List Item) :
    ∀ b : Best, (∀ i ∈ l, score i ≤ b.score) →
      l.foldl (roleStep score val) b = b := by
  induction l with
  | nil => intro b _; rfl
  | cons i l ih =>
      intro b h
      have hi : score i ≤ b.score := h i (List.mem_cons_self i l)
      have hstep : roleStep score val b i = b := by
        unfold roleStep
        simp [not_lt.mpr hi]
      simp only [List.foldl_cons, hstep]
      exact ih b (fun j hj => h j (List.mem_cons_of_mem i hj))

/-- The fold selects `j` when `j` strictly beats the accumulator and every
field before it, and no field after it strictly beats `j`. -/
theorem pick_first (pre : List Item) (j : Item) (post : List Item) :
    ∀ b : Best, b.score < score j →
      (∀ i ∈ pre, score i < score j) →
      (∀ i ∈ post, score i ≤ score j) →
      (pre ++ j :: post).foldl (roleStep score val) b = ⟨score j, val j⟩ := by
  induction pre with
  | nil =>
      intro b hb _ hpost
      have hstep : roleStep score val b j = ⟨score j, val j⟩ := by
        unfold roleStep
        simp [hb]
      simp only [List.nil_append, List.foldl_cons, hstep]
      exact pick_keep score val post ⟨score j, val j⟩ hpost
  | cons i pre ih =>
      intro b hb hpre hpost
      have hi : score i < score j := hpre i (List.mem_cons_self i pre)
      have hb' : (roleStep score val b i).score < score j := by
        unfold roleStep
        by_cases h : score i > b.score
        · simp [h]; exact hi
        · simp [h]; exact hb
      simp only [List.cons_append, List.foldl_cons]
      exact ih _ hb' (fun k hk => hpre k (List.mem_cons_of_mem i hk)) hpost

end Selection

/-! ## Projection lemmas: the loop state decomposes componentwise -/

theorem foldl_bestName (l : List Item) :
    ∀ s : IdState, (l.foldl stepItem s).bestName
      = l.foldl (roleStep nameScoreIt (fun j => j.answer)) s.bestName := by
  induction l with
  | nil => intro s; rfl
  | cons i l ih => intro s; simpa using ih (stepItem s i)

theorem foldl_bestPhone (l : List Item) :
    ∀ s : IdState, (l.foldl stepItem s).bestPhone
      = l.foldl (roleStep phoneScoreIt (fun j => j.answer)) s.bestPhone := by
  induction l with
  | nil => intro s; rfl
  | cons i l ih => intro s; simpa using ih (stepItem s i)

theorem foldl_bestResume (l : List Item) :
    ∀ s : IdState, (l.foldl stepItem s).bestResume
      = l.foldl (roleStep resumeScoreIt resumeValue) s.bestResume := by
  induction l with
  | nil => intro s; rfl
  | cons i l ih => intro s; simpa using ih (stepItem s i)

theorem foldl_answers (l : List Item) :
    ∀ s : IdState, (l.foldl stepItem s).answers
      = l.foldl (fun m i => setKey m i.title i.answer) s.answers := by
  induction l with
  | nil => intro s; rfl
  | cons i l ih => intro s; simpa using ih (stepItem s i)

/-- A truthy email slot is never overwritten by the label fallback. -/
theorem foldl_email_keep (l : List Item) :
    ∀ s : IdState, isFalsy s.email = false →
      (l.foldl stepItem s).email = s.email := by
  induction l with
  | nil => intro s _; rfl
  | cons i l ih =>
      intro s h
      have hstep : (stepItem s i).email = s.email := by
        unfold stepItem
        simp [h]
      have h' : isFalsy (stepItem s i).email = false := by rw [hstep]; exact h
      simpa [hstep] using ih (stepItem s i) h'

/-- While the email slot is empty, an item without the "email" cue leaves
it empty. -/
theorem foldl_email_empty (l : List Item) :
    ∀ s : IdState, s.email = Ans.text "" →
      (∀ i ∈ l, includesL (lowerOf i.title) "email" = false) →
      (l.foldl stepItem s).email = Ans.text "" := by
  induction l with
  | nil => intro s h _; exact h
  | cons i l ih =>
      intro s h hl
      have hstep : (stepItem s i).email = Ans.text "" := by
        unfold stepItem
        simp [hl i (List.mem_cons_self i l), h]
      exact ih (stepItem s i) hstep (fun j hj => hl j (List.mem_cons_of_mem i hj))

/-! ## Lemmas about the answers map -/

theorem lookup_setKey_self (m : List (String × Ans)) (k : String) (v : Ans) :
    List.lookup k (setKey m k v) = some v := by
  induction m with
  | nil => simp [setKey, List.lookup]
  | cons p m ih =>
      obtain ⟨k', v'⟩ := p
      by_cases h : k' = k
      · subst h
        simp [setKey, List.lookup]
      · have hbeq : (k' == k) = false := beq_false_of_ne h
        have hbeq' : (k == k') = false := beq_false_of_ne (Ne.symm h)
        simp [setKey, hbeq, List.lookup, hbeq', ih]

theorem lookup_setKey_other (m : List (String × Ans)) (k k' : String) (v : Ans)
    (h : k' ≠ k) : List.lookup k' (setKey m k v) = List.lookup k' m := by
  induction m with
  | nil => simp [setKey, List.lookup, beq_false_of_ne h]
  | cons p m ih =>
      obtain ⟨k₀, v₀⟩ := p
      by_cases h0 : k₀ = k
      · subst h0
        have : (k' == k₀) = false := beq_false_of_ne h
        simp [setKey, List.lookup, this]
      · simp [setKey, beq_false_of_ne h0, List.lookup, ih]

theorem lookup_mem (m : List (String × Ans)) (k : String) (v : Ans)
    (h : List.lookup k m = some v) : (k, v) ∈ m := by
  induction m with
  | nil => simp [List.lookup] at h
  | cons p m ih =>
      obtain ⟨k₀, v₀⟩ := p
      by_cases h1 : k = k₀
      · subst h1
        simp [List.lookup] at h
        simp [h]
      · simp [List.lookup, beq_false_of_ne h1] at h
        exact List.mem_cons_of_mem _ (ih h)

/-- Folding items none of which carry title `t` leaves the lookup of `t`
unchanged. -/
theorem lookup_foldl_setKey_skip (l : List Item) (t : String) :
    ∀ m : List (String × Ans), (∀ j ∈ l, j.title ≠ t) →
      List.lookup t (l.foldl (fun m i => setKey m i.title i.answer) m)
        = List.lookup t m := by
  induction l with
  | nil => intro m _; rfl
  | cons i l ih =>
      intro m h
      have hi : i.title ≠ t := h i (List.mem_cons_self i l)
      simp only [List.foldl_cons]
      rw [ih _ (fun j hj => h j (List.mem_cons_of_mem i hj))]
      exact lookup_setKey_other m i.title t i.answer (Ne.symm hi)

/-- A key present before a `setKey` fold is still present after it. -/
theorem lookup_foldl_setKey_present (l : List Item) (t : String) :
    ∀ m : List (String × Ans), (∃ v, List.lookup t m = some v) →
      ∃ v, List.lookup t (l.foldl (fun m i => setKey m i.title i.answer) m)
        = some v := by
  induction l with
  | nil => intro m h; exact h
  | cons i l ih =>
      intro m h
      obtain ⟨v, hv⟩ := h
      simp only [List.foldl_cons]
      apply ih
      by_cases hk : i.title = t
      · subst hk
        exact ⟨i.answer, lookup_setKey_self m i.title i.answer⟩
      · exact ⟨v, by rw [lookup_setKey_other m i.title t i.answer (Ne.symm hk)]; exact hv⟩

/-! ## Role-assignment helpers -/

theorem name_unassigned (e : String) (items : List Item)
    (h : ∀ i ∈ items, nameScoreIt i ≤ 0) :
    (onFormSubmit e items).name = Ans.text "Unknown Candidate" := by
  have hb := foldl_bestName items (initState e)
  rw [pick_keep _ _ items _ (by intro i hi; exact h i hi)] at hb
  simp only [onFormSubmit]
  rw [hb]
  simp [initState]

theorem name_selected (e : String) (pre : List Item) (j : Item) (post : List Item)
    (hj : 0 < nameScoreIt j)
    (hpre : ∀ i ∈ pre, nameScoreIt i < nameScoreIt j)
    (hpost : ∀ i ∈ post, nameScoreIt i ≤ nameScoreIt j) :
    (onFormSubmit e (pre ++ j :: post)).name = j.answer := by
  have hb := foldl_bestName (pre ++ j :: post) (initState e)
  rw [pick_first _ _ pre j post _ hj hpre hpost] at hb
  simp only [onFormSubmit]
  rw [hb]
  simp [hj]

theorem phone_unassigned (e : String) (items : List Item)
    (h : ∀ i ∈ items, phoneScoreIt i ≤ 0) :
    (onFormSubmit e items).phone = Ans.text "" := by
  have hb := foldl_bestPhone items (initState e)
  rw [pick_keep _ _ items _ (by intro i hi; exact h i hi)] at hb
  simp only [onFormSubmit]
  rw [hb]
  simp [initState]

theorem phone_selected (e : String) (pre : List Item) (j : Item) (post : List Item)
    (hj : 0 < phoneScoreIt j)
    (hpre : ∀ i ∈ pre, phoneScoreIt i < phoneScoreIt j)
    (hpost : ∀ i ∈ post, phoneScoreIt i ≤ phoneScoreIt j) :
    (onFormSubmit e (pre ++ j :: post)).phone = j.answer := by
  have hb := foldl_bestPhone (pre ++ j :: post) (initState e)
  rw [pick_first _ _ pre j post _ hj hpre hpost] at hb
  simp only [onFormSubmit]
  rw [hb]
  simp [hj]

theorem resume_unassigned (e : String) (items : List Item)
    (h : ∀ i ∈ items, resumeScoreIt i ≤ 0) :
    (onFormSubmit e items).resume_url = Ans.text "" := by
  have hb := foldl_bestResume items (initState e)
  rw [pick_keep _ _ items _ (by intro i hi; exact h i hi)] at hb
  simp only [onFormSubmit]
  rw [hb]
  simp [initState]

theorem resume_selected (e : String) (pre : List Item) (j : Item) (post : List Item)
    (hj : 0 < resumeScoreIt j)
    (hpre : ∀ i ∈ pre, resumeScoreIt i < resumeScoreIt j)
    (hpost : ∀ i ∈ post, resumeScoreIt i ≤ resumeScoreIt j) :
    (onFormSubmit e (pre ++ j :: post)).resume_url = resumeValue j := by
  have hb := foldl_bestResume (pre ++ j :: post) (initState e)
  rw [pick_first _ _ pre j post _ hj hpre hpost] at hb
  simp only [onFormSubmit]
  rw [hb]
  simp [hj]

/-! ## Claim theorems: Field Identifier -/

/-- C2: per-role selection rule of the Field Identifier. For every
submission and for each role (name, phone, resume) independently: the
field assigned to the role is the one with the strictly highest positive
keyword score — i.e. the field `j` such that every earlier field scores
strictly lower and every later field scores no higher (so ties keep the
first field in declaration order) — and when no field scores above zero
the payload keeps its default value for that role. -/
theorem fi_role_selection_rule (e : String) (items : List Item) :
    ((∀ i ∈ items, nameScoreIt i ≤ 0) →
        (onFormSubmit e items).name = Ans.text "Unknown Candidate")
  ∧ (∀ pre j post, items = pre ++ j :: post → 0 < nameScoreIt j →
      (∀ i ∈ pre, nameScoreIt i < nameScoreIt j) →
      (∀ i ∈ post, nameScoreIt i ≤ nameScoreIt j) →
      (onFormSubmit e items).name = j.answer)
  ∧ ((∀ i ∈ items, phoneScoreIt i ≤ 0) →
        (onFormSubmit e items).phone = Ans.text "")
  ∧ (∀ pre j post, items = pre ++ j :: post → 0 < phoneScoreIt j →
      (∀ i ∈ pre, phoneScoreIt i < phoneScoreIt j) →
      (∀ i ∈ post, phoneScoreIt i ≤ phoneScoreIt j) →
      (onFormSubmit e items).phone = j.answer)
  ∧ ((∀ i ∈ items, resumeScoreIt i ≤ 0) →
        (onFormSubmit e items).resume_url = Ans.text "")
  ∧ (∀ pre j post, items = pre ++ j :: post → 0 < resumeScoreIt j →
      (∀ i ∈ pre, resumeScoreIt i < resumeScoreIt j) →
      (∀ i ∈ post, resumeScoreIt i ≤ resumeScoreIt j) →
      (onFormSubmit e items).resume_url = resumeValue j) := by
  refine ⟨fun h => name_unassigned e items h, ?_,
          fun h => phone_unassigned e items h, ?_,
          fun h => resume_unassigned e items h, ?_⟩
  · intro pre j post hdec hj hpre hpost
    subst hdec; exact name_selected e pre j post hj hpre hpost
  · intro pre j post hdec hj hpre hpost
    subst hdec; exact phone_selected e pre j post hj hpre hpost
  · intro pre j post hdec hj hpre hpost
    subst hdec; exact resume_selected e pre j post hj hpre hpost

theorem fi_role_selection_rule_witness :
    (onFormSubmit "" [⟨"Company Name", false, Ans.text "Acme"⟩,
                      ⟨"Full Name", false, Ans.text "Ada"⟩,
                      ⟨"Your Name", false, Ans.text "Bob"⟩]).name
      = Ans.text "Ada" := by
  have h := (fi_role_selection_rule ""
    [⟨"Company Name", false, Ans.text "Acme"⟩,
     ⟨"Full Name", false, Ans.text "Ada"⟩,
     ⟨"Your Name", false, Ans.text "Bob"⟩]).2.1
    [⟨"Company Name", false, Ans.text "Acme"⟩]
    ⟨"Full Name", false, Ans.text "Ada"⟩
    [⟨"Your Name", false, Ans.text "Bob"⟩]
    rfl (by decide) (by decide) (by decide)
  exact h

/-- C1: label-renaming tolerance. A field labeled "Upload CV" with
declared kind `file` (resume score 35) is assigned to the resume role in
any submission whose other fields all score below 35 for the resume role;
and in a submission containing the fields "Reference Name" and
"Full Name", the "Full Name" field is assigned to the name role in either
declaration order, whatever the declared kinds and values. -/
theorem fi_label_renaming_tolerance :
    (∀ (e : String) (pre post : List Item) (v : Ans),
      (∀ i ∈ pre, resumeScoreIt i < 35) → (∀ i ∈ post, resumeScoreIt i < 35) →
      (onFormSubmit e (pre ++ ⟨"Upload CV", true, v⟩ :: post)).resume_url
        = resumeValue ⟨"Upload CV", true, v⟩)
  ∧ (∀ (e : String) (fa fb : Bool) (a b : Ans),
      (onFormSubmit e [⟨"Reference Name", fa, a⟩, ⟨"Full Name", fb, b⟩]).name = b
      ∧ (onFormSubmit e [⟨"Full Name", fb, b⟩, ⟨"Reference Name", fa, a⟩]).name = b) := by
  constructor
  · intro e pre post v hpre hpost
    have h35 : resumeScoreIt ⟨"Upload CV", true, v⟩ = 35 := rfl
    apply resume_selected
    · rw [h35]; decide
    · intro i hi; rw [h35]; exact hpre i hi
    · intro i hi; rw [h35]; exact le_of_lt (hpost i hi)
  · intro e fa fb a b
    have hr : nameScoreIt ⟨"Reference Name", fa, a⟩ = -8 := rfl
    have hf : nameScoreIt ⟨"Full Name", fb, b⟩ = 10 := rfl
    constructor
    · have := name_selected e [⟨"Reference Name", fa, a⟩] ⟨"Full Name", fb, b⟩ [] (by rw [hf]; decide)
        (by intro i hi
            simp only [List.mem_singleton] at hi
            subst hi; rw [hr, hf]; decide)
        (by intro i hi; simp at hi)
      simpa using this
    · have := name_selected e [] ⟨"Full Name", fb, b⟩ [⟨"Reference Name", fa, a⟩] (by rw [hf]; decide)
        (by intro i hi; simp at hi)
        (by intro i hi
            simp only [List.mem_singleton] at hi
            subst hi; rw [hr, hf]; decide)
      simpa using this

theorem fi_label_renaming_tolerance_witness :
    (onFormSubmit "" [⟨"Full Name", false, Ans.text "Ada"⟩,
                      ⟨"Upload CV", true, Ans.files ["id1"]⟩]).resume_url
      = Ans.text "https://drive.google.com/uc?export=download&id=id1" := by
  have h := fi_label_renaming_tolerance.1 ""
    [⟨"Full Name", false, Ans.text "Ada"⟩] [] (Ans.files ["id1"])
    (by decide) (by decide)
  simpa using h

/-- C10: payload defaults. The webhook payload keeps `name` at the fixed
string "Unknown Candidate" and `phone` / `resume_url` at the empty string
whenever no field scores above zero for the respective role; `email` is
initialised from the platform-collected respondent email before any
label-based fallback — a non-empty respondent email is never overwritten,
and an absent one stays the empty string when no field label contains
"email". The payload record always carries all of these slots. -/
theorem payload_defaults (e : String) (items : List Item) :
    ((∀ i ∈ items, nameScoreIt i ≤ 0) →
        (onFormSubmit e items).name = Ans.text "Unknown Candidate")
  ∧ ((∀ i ∈ items, phoneScoreIt i ≤ 0) →
        (onFormSubmit e items).phone = Ans.text "")
  ∧ ((∀ i ∈ items, resumeScoreIt i ≤ 0) →
        (onFormSubmit e items).resume_url = Ans.text "")
  ∧ (e ≠ "" → (onFormSubmit e items).email = Ans.text e)
  ∧ (e = "" → (∀ i ∈ items, includesL (lowerOf i.title) "email" = false) →
        (onFormSubmit e items).email = Ans.text "") := by
  refine ⟨fun h => name_unassigned e items h,
          fun h => phone_unassigned e items h,
          fun h => resume_unassigned e items h, ?_, ?_⟩
  · intro he
    have hf : isFalsy (initState e).email = false := by
      simp [initState, isFalsy, he]
    have := foldl_email_keep items (initState e) hf
    simpa [onFormSubmit, initState] using this
  · intro he hl
    have := foldl_email_empty items (initState e) (by simp [initState, he]) hl
    simpa [onFormSubmit] using this

theorem payload_defaults_witness :
    (onFormSubmit "ada@example.com"
        [⟨"Favourite colour", false, Ans.text "blue"⟩]).name
      = Ans.text "Unknown Candidate"
    ∧ (onFormSubmit "ada@example.com"
        [⟨"Favourite colour", false, Ans.text "blue"⟩]).phone = Ans.text ""
    ∧ (onFormSubmit "ada@example.com"
        [⟨"Favourite colour", false, Ans.text "blue"⟩]).resume_url = Ans.text ""
    ∧ (onFormSubmit "ada@example.com"
        [⟨"Favourite colour", false, Ans.text "blue"⟩]).email
      = Ans.text "ada@example.com" := by
  have h := payload_defaults "ada@example.com"
    [⟨"Favourite colour", false, Ans.text "blue"⟩]
  exact ⟨h.1 (by decide), h.2.1 (by decide), h.2.2.1 (by decide),
         h.2.2.2.1 (by decide)⟩

/-- C8 (amended): answers-map preservation. Every field whose label is not
repeated by a later field appears verbatim (same label, same value) in the
`answers` map of the payload — including fields assigned to a role, since
the loop records every response before the role competitions — and every
submitted label is present with some value; but when two fields share a
label, the later value overwrites the earlier, so the earlier field's
value is discarded. -/
theorem answers_preservation_amended :
    (∀ (e : String) (pre : List Item) (i : Item) (post : List Item),
      (∀ j ∈ post, j.title ≠ i.title) →
      (i.title, i.answer) ∈ (onFormSubmit e (pre ++ i :: post)).answers)
  ∧ (∀ (e : String) (items : List Item) (i : Item), i ∈ items →
      ∃ v, (i.title, v) ∈ (onFormSubmit e items).answers) := by
  constructor
  · intro e pre i post hpost
    have hans : (onFormSubmit e (pre ++ i :: post)).answers
        = (pre ++ i :: post).foldl (fun m j => setKey m j.title j.answer)
            (initState e).answers := by
      simp only [onFormSubmit]
      exact foldl_answers (pre ++ i :: post) (initState e)
    rw [hans, List.foldl_append, List.foldl_cons]
    apply lookup_mem
    rw [lookup_foldl_setKey_skip post i.title _ hpost]
    exact lookup_setKey_self _ i.title i.answer
  · intro e items i hi
    obtain ⟨pre, post, hdec⟩ := List.append_of_mem hi
    subst hdec
    have hans : (onFormSubmit e (pre ++ i :: post)).answers
        = (pre ++ i :: post).foldl (fun m j => setKey m j.title j.answer)
            (initState e).answers := by
      simp only [onFormSubmit]
      exact foldl_answers (pre ++ i :: post) (initState e)
    rw [hans, List.foldl_append, List.foldl_cons]
    have hpresent :
        ∃ v, List.lookup i.title
          (post.foldl (fun m j => setKey m j.title j.answer)
            (setKey (pre.foldl (fun m j => setKey m j.title j.answer)
              (initState e).answers) i.title i.answer)) = some v :=
      lookup_foldl_setKey_present post i.title _
        ⟨i.answer, lookup_setKey_self _ i.title i.answer⟩
    obtain ⟨v, hv⟩ := hpresent
    exact ⟨v, lookup_mem _ _ _ hv⟩

theorem answers_preservation_amended_witness :
    (("Why us?" : String), Ans.text "passion")
      ∈ (onFormSubmit "" [⟨"Full Name", false, Ans.text "Ada"⟩,
                          ⟨"Why us?", false, Ans.text "passion"⟩]).answers := by
  have h := answers_preservation_amended.1 ""
    [⟨"Full Name", false, Ans.text "Ada"⟩]
    ⟨"Why us?", false, Ans.text "passion"⟩ [] (by intro j hj; simp at hj)
  simpa using h

/-- C8 counterexample: the claim "every form field that is not assigned to
a semantic role appears verbatim (same label, same value) in the remaining
answers map; no input field is discarded" is false: when two unassigned
fields share the label "q", the first one's value "a" is overwritten by
the second's "b" and discarded. -/
theorem answers_preservation_cex :
    (onFormSubmit "" [⟨"q", false, Ans.text "a"⟩, ⟨"q", false, Ans.text "b"⟩]).name
        = Ans.text "Unknown Candidate"
    ∧ (onFormSubmit "" [⟨"q", false, Ans.text "a"⟩, ⟨"q", false, Ans.text "b"⟩]).phone
        = Ans.text ""
    ∧ (onFormSubmit "" [⟨"q", false, Ans.text "a"⟩, ⟨"q", false, Ans.text "b"⟩]).resume_url
        = Ans.text ""
    ∧ (onFormSubmit "" [⟨"q", false, Ans.text "a"⟩, ⟨"q", false, Ans.text "b"⟩]).answers
        = [("q", Ans.text "b")]
    ∧ (("q" : String), Ans.text "a")
        ∉ (onFormSubmit "" [⟨"q", false, Ans.text "a"⟩, ⟨"q", false, Ans.text "b"⟩]).answers := by
  refine ⟨by decide, by decide, by decide, by decide, by decide⟩

/-! ## Sorting lemmas for the candidate list -/

theorem insertCand_perm (c : Cand) (l : List Cand) :
    List.Perm (insertCand c l) (c :: l) := by
  induction l with
  | nil => exact List.Perm.refl _
  | cons d ds ih =>
      unfold insertCand
      by_cases h : keyOf d ≤ keyOf c
      · rw [if_pos h]
      · rw [if_neg h]
        exact (ih.cons d).trans (List.Perm.swap c d ds)

theorem sortCands_perm (l : List Cand) : List.Perm (sortCands l) l := by
  induction l with
  | nil => exact List.Perm.refl _
  | cons c cs ih => exact (insertCand_perm c (sortCands cs)).trans (ih.cons c)

theorem mem_insertCand {x c : Cand} {l : List Cand} :
    x ∈ insertCand c l ↔ x = c ∨ x ∈ l := by
  rw [(insertCand_perm c l).mem_iff, List.mem_cons]

theorem insertCand_sorted (c : Cand) (l : List Cand) (h : SortedDesc l) :
    SortedDesc (insertCand c l) := by
  induction l with
  | nil => simp [insertCand, SortedDesc]
  | cons d ds ih =>
      rw [SortedDesc, List.pairwise_cons] at h
      obtain ⟨h1, h2⟩ := h
      unfold insertCand
      by_cases hdc : keyOf d ≤ keyOf c
      · simp only [if_pos hdc]
        rw [SortedDesc, List.pairwise_cons]
        refine ⟨?_, ?_⟩
        · intro x hx
          rcases List.mem_cons.mp hx with hx | hx
          · subst hx; exact hdc
          · exact le_trans (h1 x hx) hdc
        · rw [List.pairwise_cons]; exact ⟨h1, h2⟩
      · simp only [if_neg hdc]
        rw [SortedDesc, List.pairwise_cons]
        refine ⟨?_, ih h2⟩
        intro x hx
        rcases mem_insertCand.mp hx with hx | hx
        · subst hx; exact le_of_lt (not_le.mp hdc)
        · exact h1 x hx

theorem sortCands_sorted (l : List Cand) : SortedDesc (sortCands l) := by
  induction l with
  | nil => simp [sortCands, SortedDesc]
  | cons c cs ih => exact insertCand_sorted c (sortCands cs) ih

theorem filter_insertCand (k : Int) (c : Cand) (l : List Cand) :
    (insertCand c l).filter (fun x => keyOf x == k)
      = if keyOf c == k then c :: l.filter (fun x => keyOf x == k)
        else l.filter (fun x => keyOf x == k) := by
  induction l with
  | nil => cases h : (keyOf c == k) <;> simp [insertCand, List.filter_cons, h]
  | cons d ds ih =>
      unfold insertCand
      by_cases hdc : keyOf d ≤ keyOf c
      · rw [if_pos hdc]
        cases h : (keyOf c == k) <;> simp [List.filter_cons, h]
      · rw [if_neg hdc]
        have hd : keyOf c < keyOf d := not_le.mp hdc
        cases hck : (keyOf c == k)
        · cases hdk : (keyOf d == k) <;>
            simp [List.filter_cons, hdk, ih, hck]
        · have hdk : (keyOf d == k) = false := by
            have hc' : keyOf c = k := beq_iff_eq.mp hck
            exact beq_false_of_ne (by omega)
          simp [List.filter_cons, hdk, ih, hck]

theorem sortCands_stable (k : Int) (l : List Cand) :
    (sortCands l).filter (fun x => keyOf x == k)
      = l.filter (fun x => keyOf x == k) := by
  induction l with
  | nil => rfl
  | cons c cs ih =>
      unfold sortCands
      rw [filter_insertCand, ih]
      cases hc : (keyOf c == k) <;> simp [List.filter_cons, hc]

theorem enumFrom_fst (n : Nat) (l : List Cand) :
    (l.enumFrom n).map Prod.fst = List.range' n l.length := by
  induction l generalizing n with
  | nil => rfl
  | cons c cs ih => simp [List.enumFrom, List.range', ih]

/-! ## Claim theorems: candidate list and scoring -/

/-- C4 (amended): `loadCandidates` sorts descending by `total_score || 0`
with a stable sort, so candidates with equal total_score keep their input
order (the fetched order) — they are NOT reordered by submission
timestamp; ranks 1..N are the positions of that order; the ranked output
is a permutation of the input; and ranking is a pure function, so
identical input yields identical rank assignment. -/
theorem rank_stable_sort (l : List Cand) :
    SortedDesc (sortCands l)
  ∧ List.Perm (sortCands l) l
  ∧ (∀ k : Int, (sortCands l).filter (fun c => keyOf c == k)
        = l.filter (fun c => keyOf c == k))
  ∧ (rankCands l).map Prod.fst = List.range' 1 l.length := by
  refine ⟨sortCands_sorted l, sortCands_perm l, fun k => sortCands_stable k l, ?_⟩
  rw [rankCands, enumFrom_fst, (sortCands_perm l).length_eq]

/-- C4 counterexample: two candidates with equal total_score 50 where the
earlier-submitted one (timestamp 1) comes second in the input stay in
input order after sorting — the code does not tie-break by earliest
submission timestamp ascending, contradicting the claim. -/
theorem rank_timestamp_tiebreak_cex :
    sortCands [⟨"a", "processed", some 50, some ⟨"ok"⟩, false, 5⟩,
               ⟨"b", "processed", some 50, some ⟨"ok"⟩, false, 1⟩]
      = [⟨"a", "processed", some 50, some ⟨"ok"⟩, false, 5⟩,
         ⟨"b", "processed", some 50, some ⟨"ok"⟩, false, 1⟩]
  ∧ keyOf ⟨"a", "processed", some 50, some ⟨"ok"⟩, false, 5⟩
      = keyOf ⟨"b", "processed", some 50, some ⟨"ok"⟩, false, 1⟩
  ∧ (⟨"b", "processed", some 50, some ⟨"ok"⟩, false, 1⟩ : Cand).timestamp
      < (⟨"a", "processed", some 50, some ⟨"ok"⟩, false, 5⟩ : Cand).timestamp
  ∧ sortCands [⟨"a", "processed", some 50, some ⟨"ok"⟩, false, 5⟩,
               ⟨"b", "processed", some 50, some ⟨"ok"⟩, false, 1⟩]
      ≠ [⟨"b", "processed", some 50, some ⟨"ok"⟩, false, 1⟩,
         ⟨"a", "processed", some 50, some ⟨"ok"⟩, false, 5⟩] := by
  refine ⟨by decide, by decide, by decide, by decide⟩

/-- C9: pending display rule. Every candidate in the rendered list whose
status is "pending", or whose total_score is exactly 0 while its
ai_analysis is absent or its summary contains "Pending", is displayed in
the Pending state (not with its 0% score) and its id is queued for
automatic re-processing. -/
theorem pending_display_rule (l : List Cand) (c : Cand) (hc : c ∈ l)
    (h : c.status = "pending"
      ∨ (c.total_score = some 0
          ∧ (c.ai_analysis = none
             ∨ ∃ a, c.ai_analysis = some a
                 ∧ includesL a.summary.data "Pending" = true))) :
    displayState c = DState.pending ∧ c.id ∈ pendingIds l := by
  have hp : isPending c = true := by
    unfold isPending
    rcases h with h | ⟨h0, hai⟩
    · rw [beq_iff_eq.mpr h]
      simp
    · rw [beq_iff_eq.mpr h0]
      rcases hai with hai | ⟨a, ha, hinc⟩
      · rw [hai]; simp
      · rw [ha]
        by_cases hs : a.summary = ""
        · rw [hs] at hinc
          exact absurd hinc (by decide)
        · simp [beq_false_of_ne hs, hinc]
  constructor
  · simp [displayState, hp]
  · exact List.mem_map.mpr ⟨c, List.mem_filter.mpr ⟨hc, hp⟩, rfl⟩

theorem pending_display_rule_witness :
    displayState ⟨"id7", "processed", some 0, none, false, 3⟩ = DState.pending
    ∧ ("id7" : String)
        ∈ pendingIds [⟨"id7", "processed", some 0, none, false, 3⟩] := by
  exact pending_display_rule [⟨"id7", "processed", some 0, none, false, 3⟩]
    ⟨"id7", "processed", some 0, none, false, 3⟩ (by decide)
    (Or.inr ⟨rfl, Or.inl rfl⟩)

/-- C3: grade thresholds. For every total_score in `[0,100]` the
spec-modelled grade function yields A exactly when the score is at least
80, B exactly on `[65,80)`, C exactly on `[50,65)` and D exactly below
50; it is a pure function of the score. -/
theorem grade_thresholds (s : Int) (h0 : 0 ≤ s) (h100 : s ≤ 100) :
    (gradeOf s = Grade.A ↔ 80 ≤ s)
  ∧ (gradeOf s = Grade.B ↔ 65 ≤ s ∧ s < 80)
  ∧ (gradeOf s = Grade.C ↔ 50 ≤ s ∧ s < 65)
  ∧ (gradeOf s = Grade.D ↔ s < 50) := by
  unfold gradeOf
  split_ifs with h1 h2 h3 <;> refine ⟨?_, ?_, ?_, ?_⟩ <;> simp <;> omega

theorem grade_thresholds_witness :
    gradeOf 72 = Grade.B :=
  ((grade_thresholds 72 (by decide) (by decide)).2.1).mpr (by constructor <;> decide)

/-- C5: clamping of the aggregate. For every assignment of the nine
dimension scores in `[0,100]`, every AI adjustment in `[-15,15]` and every
list of modifier deltas (unbounded accumulation allowed), the total score
`clamp(weighted_sum + ai + Σ deltas, 0, 100)` lies in `[0,100]`. -/
theorem total_score_clamped (dims : List (String × ℚ)) (ai : Int) (mods : List Int)
    (_hnames : dims.map Prod.fst = dimNames)
    (_hrange : ∀ p ∈ dims, 0 ≤ p.2 ∧ p.2 ≤ 100)
    (_hlo : -15 ≤ ai) (_hhi : ai ≤ 15) :
    0 ≤ total_score dims ai mods ∧ total_score dims ai mods ≤ 100 := by
  unfold total_score clampI
  omega

theorem total_score_clamped_witness :
    0 ≤ total_score (dimNames.map (fun d => (d, (50 : ℚ)))) 10 [-5, -5, 8]
    ∧ total_score (dimNames.map (fun d => (d, (50 : ℚ)))) 10 [-5, -5, 8] ≤ 100 := by
  apply total_score_clamped (dimNames.map (fun d => (d, (50 : ℚ)))) 10 [-5, -5, 8] rfl
  · intro p hp
    obtain ⟨d, _, rfl⟩ := List.mem_map.mp hp
    exact ⟨by norm_num, by norm_num⟩
  · norm_num
  · norm_num

/-- C6: weight invariant. The dimension-weight table has exactly nine
entries, carries exactly the documented per-dimension weights, and the
nine weights sum to exactly 1. -/
theorem weights_invariant :
    weightsTable.length = 9
  ∧ (weightsTable.map Prod.snd).sum = 1
  ∧ weightsTable.lookup "Job Relevance" = some (25/100)
  ∧ weightsTable.lookup "Skills Match" = some (20/100)
  ∧ weightsTable.lookup "Technical Depth" = some (15/100)
  ∧ weightsTable.lookup "Experience" = some (10/100)
  ∧ weightsTable.lookup "Project Complexity" = some (10/100)
  ∧ weightsTable.lookup "Communication" = some (5/100)
  ∧ weightsTable.lookup "Culture Fit" = some (5/100)
  ∧ weightsTable.lookup "Education" = some (5/100)
  ∧ weightsTable.lookup "Keywords" = some (5/100) := by
  refine ⟨rfl, by norm_num [weightsTable], rfl, rfl, rfl, rfl, rfl, rfl, rfl, rfl, rfl⟩

/-- C7: degraded-mode scoring. Whatever the dimension scorers `f`, the AI
adjustment and the modifiers, a profile with `parsing_failed = true`
still receives a complete ScoreBreakdown: all nine dimensions are present
(in table order) and the total is clamped into `[0,100]`; moreover a
parsing-failed candidate in the dashboard list is never dropped by
ranking and, when not in the pending state, is displayed as Manual
Review. -/
theorem degraded_mode_scoring (f : String → Option String → ℚ) (ai : Int)
    (mods : List Int) (p : Profile) (_hp : p.parsing_failed = true) :
    (mkBreakdown f ai mods p).dimension_scores.map Prod.fst = dimNames
  ∧ (mkBreakdown f ai mods p).dimension_scores.length = 9
  ∧ 0 ≤ (mkBreakdown f ai mods p).total
  ∧ (mkBreakdown f ai mods p).total ≤ 100
  ∧ (∀ (l : List Cand) (c : Cand), c ∈ l → c.parsing_failed = true →
      c ∈ sortCands l)
  ∧ (∀ c : Cand, c.parsing_failed = true → isPending c = false →
      displayState c = DState.manualReview) := by
  refine ⟨rfl, rfl, ?_, ?_, ?_, ?_⟩
  · simp only [mkBreakdown]
    unfold total_score clampI
    omega
  · simp only [mkBreakdown]
    unfold total_score clampI
    omega
  · intro l c hc _
    exact (sortCands_perm l).mem_iff.mpr hc
  · intro c hpf hnp
    simp [displayState, hnp, hpf]

theorem degraded_mode_scoring_witness :
    (mkBreakdown (fun _ _ => (20 : ℚ)) 0 [] ⟨none, true⟩).dimension_scores.length = 9
  ∧ (⟨"x", "processed", some 40, some ⟨"ok"⟩, true, 0⟩ : Cand)
      ∈ sortCands [⟨"x", "processed", some 40, some ⟨"ok"⟩, true, 0⟩]
  ∧ displayState ⟨"x", "processed", some 40, some ⟨"ok"⟩, true, 0⟩
      = DState.manualReview := by
  have h := degraded_mode_scoring (fun _ _ => (20 : ℚ)) 0 [] ⟨none, true⟩ rfl
  exact ⟨h.2.1,
         h.2.2.2.2.1 [⟨"x", "processed", some 40, some ⟨"ok"⟩, true, 0⟩]
           ⟨"x", "processed", some 40, some ⟨"ok"⟩, true, 0⟩ (by decide) rfl,
         h.2.2.2.2.2 ⟨"x", "processed", some 40, some ⟨"ok"⟩, true, 0⟩ rfl (by decide)⟩

example : nameScoreIt ⟨"Full Name", false, Ans.text "x"⟩ = 10 := by decide

example : nameScoreIt ⟨"Reference Name", false, Ans.text "x"⟩ = -8 := by decide

example : resumeScoreIt ⟨"Upload CV", true, Ans.files ["f"]⟩ = 35 := by decide

example :
    (onFormSubmit "" [⟨"Full Name", false, Ans.text "Ada"⟩,
                      ⟨"Phone Number", false, Ans.text "1"⟩]).name
      = Ans.text "Ada" := by decide

end JobFormMaker
